import Mathlib

/-!
Shallow embedding of `rl_agents/agents/tree_search/robust_epc.py`
(classes `RobustEPCAgent` and `NominalEPCAgent`).

Conventions of the embedding:
* numpy arrays become functions out of `Fin _` or `Matrix (Fin _) (Fin _) ℝ`;
* the agent's mutable attributes (`self.data`, `self.ellipsoids`,
  `self.robust_env`, the environment's `automatic_record_callback`) become
  fields of an explicit `AgentState`, and each method that reads or writes
  them becomes a function on that state;
* `np.linalg.eig` is a numeric (LAPACK) routine; the eigendecomposition it
  returns is passed to `polytope` as explicit inputs `values` and `vecP`,
  exactly as the source consumes them.

Dimensions: `n` is the state dimension, `p` the control dimension and
`d = phi.shape[0]` the parameter dimension.
-/

open Matrix

noncomputable section

/-- Structural configuration of `RobustEPCAgent` (`self.config`): nominal
matrices `A`, `B`, feature tensor `phi`, noise covariance `sigma`,
regularization `lambda`, confidence level `delta`, disturbance data `D` and
`omega`, and the component-wise `parameter_bound`. -/
structure EPCConfig (n p d : ℕ) where
  A : Matrix (Fin n) (Fin n) ℝ
  B : Matrix (Fin n) (Fin p) ℝ
  phi : Fin d → Matrix (Fin n) (Fin n) ℝ
  sigma : Matrix (Fin n) (Fin n) ℝ
  lambda_ : ℝ
  delta : ℝ
  D : Matrix (Fin n) (Fin n) ℝ
  omega : List (List ℝ)
  parameter_bound : ℝ

/-- One element of `self.data`: the recorded triple
`(state, control, derivative)`. -/
structure Sample (n p : ℕ) where
  x : Fin n → ℝ
  u : Fin p → ℝ
  dx : Fin n → ℝ

/-- The triple `(theta_n_lambda, g_n_lambda, beta_n)` returned by
`RobustEPCAgent.ellipsoid`. -/
structure Ellipsoid (d : ℕ) where
  theta : Fin d → ℝ
  G : Matrix (Fin d) (Fin d) ℝ
  beta : ℝ

variable {n p d : ℕ}

/-- The per-sample feature matrix
`np.squeeze(self.phi @ state, axis=2).transpose()`: entry `(i, k)` is the
`i`-th component of `phi_k @ state`. -/
def featureMatrix (cfg : EPCConfig n p d) (x : Fin n → ℝ) :
    Matrix (Fin n) (Fin d) ℝ :=
  Matrix.of fun i k => (cfg.phi k).mulVec x i

/-- The residual `y_n = dx - A @ x - B @ u` of one sample. -/
def yResidual (cfg : EPCConfig n p d) (s : Sample n p) : Fin n → ℝ :=
  s.dx - cfg.A.mulVec s.x - cfg.B.mulVec s.u

/-- One summand `phi_n.T @ sigma_inv @ phi_n` of the information matrix. -/
def sampleInfo (cfg : EPCConfig n p d) (s : Sample n p) :
    Matrix (Fin d) (Fin d) ℝ :=
  (featureMatrix cfg s.x)ᵀ * cfg.sigma⁻¹ * featureMatrix cfg s.x

/-- The weight matrix `g_n_lambda` computed by `RobustEPCAgent.ellipsoid`:
`lambda * I` when `self.data` is empty, otherwise
`sum_n phi_n.T @ sigma_inv @ phi_n + lambda * I`. -/
def gMatrix (cfg : EPCConfig n p d) (data : List (Sample n p)) :
    Matrix (Fin d) (Fin d) ℝ :=
  if data.isEmpty then cfg.lambda_ • (1 : Matrix (Fin d) (Fin d) ℝ)
  else (data.map (sampleInfo cfg)).sum + cfg.lambda_ • (1 : Matrix (Fin d) (Fin d) ℝ)

/-- The point estimate `theta_n_lambda` computed by
`RobustEPCAgent.ellipsoid`: the zero vector when `self.data` is empty,
otherwise `inv(g_n_lambda) @ sum_n phi_n.T @ sigma_inv @ y_n`. -/
def thetaVec (cfg : EPCConfig n p d) (data : List (Sample n p)) : Fin d → ℝ :=
  if data.isEmpty then 0
  else (gMatrix cfg data)⁻¹.mulVec
    ((data.map fun s => ((featureMatrix cfg s.x)ᵀ * cfg.sigma⁻¹).mulVec (yResidual cfg s)).sum)

/-- The confidence radius `beta_n` computed by `RobustEPCAgent.ellipsoid`:
`sqrt(2*log(sqrt(det(g_n_lambda)/lambda^d)/delta)) + sqrt(lambda*d)*S`. -/
def betaVal (cfg : EPCConfig n p d) (data : List (Sample n p)) : ℝ :=
  Real.sqrt (2 * Real.log (Real.sqrt ((gMatrix cfg data).det / cfg.lambda_ ^ d) / cfg.delta))
    + Real.sqrt (cfg.lambda_ * d) * cfg.parameter_bound

/-- `RobustEPCAgent.ellipsoid`, as a pure function of the configuration and
of the current `self.data`. -/
def ellipsoid (cfg : EPCConfig n p d) (data : List (Sample n p)) : Ellipsoid d :=
  ⟨thetaVec cfg data, gMatrix cfg data, betaVal cfg data⟩

/-- Componentwise clipping, `np.clip(x, lo, hi) = np.minimum(hi, np.maximum(x, lo))`. -/
def clip (x lo hi : ℝ) : ℝ := min hi (max x lo)

/-- The sign vectors `np.array(list(itertools.product([-1, 1], repeat=k)))`,
in the order `itertools.product` yields them (first coordinate slowest). -/
def signVectors : (k : ℕ) → List (Fin k → ℝ)
  | 0 => [![]]
  | k + 1 =>
      ((signVectors k).map fun h => Matrix.vecCons (-1) h)
        ++ ((signVectors k).map fun h => Matrix.vecCons 1 h)

/-- The ellipsoid-to-box transform
`m = np.sqrt(beta_n) * np.linalg.inv(p) @ np.diag(np.sqrt(1 / values))`,
where `values, p = np.linalg.eig(g_n_lambda)` is supplied by the caller. -/
def ellipsoidToBox (beta : ℝ) (values : Fin d → ℝ)
    (vecP : Matrix (Fin d) (Fin d) ℝ) : Matrix (Fin d) (Fin d) ℝ :=
  Real.sqrt beta • (vecP⁻¹ * Matrix.diagonal fun i => Real.sqrt (1 / values i))

/-- The clipped vertex offsets
`np.clip([m @ h_k for h_k in h], -parameter_bound, parameter_bound)`. -/
def d_theta_k (cfg : EPCConfig n p d) (beta : ℝ) (values : Fin d → ℝ)
    (vecP : Matrix (Fin d) (Fin d) ℝ) : List (Fin d → ℝ) :=
  (signVectors d).map fun h i =>
    clip ((ellipsoidToBox beta values vecP).mulVec h i)
      (-cfg.parameter_bound) cfg.parameter_bound

/-- `RobustEPCAgent.polytope`, as a function of the latest ellipsoid and of
the eigendecomposition `values, p = np.linalg.eig(g_n_lambda)` (a numeric
routine, supplied as inputs). Returns `a0 = A + tensordot(theta, phi)` and
the vertex perturbations `da = [tensordot(d_theta, phi) for ...]`. -/
def RobustEPCAgent.polytope (cfg : EPCConfig n p d) (e : Ellipsoid d) (values : Fin d → ℝ)
    (vecP : Matrix (Fin d) (Fin d) ℝ) :
    Matrix (Fin n) (Fin n) ℝ × List (Matrix (Fin n) (Fin n) ℝ) :=
  let a0 := cfg.A + ∑ i, e.theta i • cfg.phi i
  let da := (d_theta_k cfg e.beta values vecP).map fun v => ∑ i, v i • cfg.phi i
  (a0, da)

/-- `NominalEPCAgent.polytope`: calls `super().polytope()` and replaces the
vertex list with the single all-zero matrix `[np.zeros(a0.shape)]`. -/
def NominalEPCAgent.polytope (cfg : EPCConfig n p d) (e : Ellipsoid d)
    (values : Fin d → ℝ) (vecP : Matrix (Fin d) (Fin d) ℝ) :
    Matrix (Fin n) (Fin n) ℝ × List (Matrix (Fin n) (Fin n) ℝ) :=
  let sup := RobustEPCAgent.polytope cfg e values vecP
  (sup.1, [(0 : Matrix (Fin n) (Fin n) ℝ)])

/-- The environment copy built by `RobustEPCAgent.robustify_env`: it carries
the `LPV(a0, da, x0, b, d_i)` robust model and has its
`automatic_record_callback` disabled. -/
structure RobustEnv (n : ℕ) where
  a0 : Matrix (Fin n) (Fin n) ℝ
  da : List (Matrix (Fin n) (Fin n) ℝ)
  x0 : Fin n → ℝ
  b : Matrix (Fin n) (Fin n) ℝ
  d_i : List (List ℝ)
  automatic_record_callback : Bool

/-- The mutable attributes of a `RobustEPCAgent` plus the live environment
state it reads: `self.data`, `self.ellipsoids`, `self.robust_env`, the
dynamics state `self.env.unwrapped.dynamics.state`, and the environment's
`automatic_record_callback` (modelled as the flag "is the callback set"). -/
structure AgentState (n p d : ℕ) where
  config : EPCConfig n p d
  data : List (Sample n p)
  ellipsoids : List (Ellipsoid d)
  robust_env : Option (RobustEnv n)
  env_state : Fin n → ℝ
  automatic_record_callback : Bool

/-- The read of `self.ellipsoids[-1]` in `RobustEPCAgent.polytope`.
`self.ellipsoids` is seeded with one element in `__init__` and only ever
appended to, so the default of `getD` is never used. -/
def lastEllipsoid (s : AgentState n p d) : Ellipsoid d :=
  s.ellipsoids.getLast?.getD ⟨0, 0, 0⟩

/-- `RobustEPCAgent.record`: when the environment's automatic-record
callback is not set, append the `(state, control, derivative)` triple to
`self.data`; otherwise do nothing. The control and derivative are read off
the environment's dynamics and are inputs here. -/
def record (s : AgentState n p d) (state : Fin n → ℝ) (control : Fin p → ℝ)
    (derivative : Fin n → ℝ) : AgentState n p d :=
  if s.automatic_record_callback then s
  else { s with data := s.data ++ [⟨state, control, derivative⟩] }

/-- `RobustEPCAgent.automatic_record`: append the triple to `self.data`,
then append `self.ellipsoid()` (computed on the updated data) to
`self.ellipsoids`. -/
def automatic_record (s : AgentState n p d) (state : Fin n → ℝ)
    (derivative : Fin n → ℝ) (control : Fin p → ℝ) : AgentState n p d :=
  let data := s.data ++ [⟨state, control, derivative⟩]
  { s with data := data, ellipsoids := s.ellipsoids ++ [ellipsoid s.config data] }

/-- One call of the method `RobustEPCAgent.ellipsoid` on an agent state:
the method reads `self.phi`, `self.config` and `self.data`, writes no
attribute, and returns the triple. -/
def ellipsoidCall (s : AgentState n p d) : AgentState n p d × Ellipsoid d :=
  (s, ellipsoid s.config s.data)

/-- `RobustEPCAgent.robustify_env`: build the `LPV` from `self.polytope()`
(which reads `self.ellipsoids[-1]`) and the current dynamics state, deep-copy
the environment, install the LPV on the copy, and disable the copy's
automatic-record callback. -/
def robustify_env (s : AgentState n p d) (values : Fin d → ℝ)
    (vecP : Matrix (Fin d) (Fin d) ℝ) : RobustEnv n :=
  let pz := RobustEPCAgent.polytope s.config (lastEllipsoid s) values vecP
  ⟨pz.1, pz.2, s.env_state, s.config.D, s.config.omega, false⟩

/-- `RobustEPCAgent.plan`: set `self.robust_env = self.robustify_env()`,
hand the robust environment to the external sub-planner and return its
answer. `sub_plan` is the external `self.sub_agent.plan`, which may fail
(`Except`); its result is returned unchanged either way. -/
def plan {ε α : Type} (s : AgentState n p d) (values : Fin d → ℝ)
    (vecP : Matrix (Fin d) (Fin d) ℝ)
    (sub_plan : RobustEnv n → Except ε (List α)) :
    AgentState n p d × Except ε (List α) :=
  let re := robustify_env s values vecP
  ({ s with robust_env := some re }, sub_plan re)

/-- A concrete configuration: the `default_config` of `RobustEPCAgent` with
`lambda = 1` and a unit noise covariance (used by witnesses). -/
def cfg1 : EPCConfig 1 1 1 :=
  ⟨1, 1, fun _ => 1, 1, 1, 9 / 10, 1, [[0], [0]], 1⟩

/-- The literal `default_config` of `RobustEPCAgent`: `A = B = D = [[1]]`,
`phi = [[[1]]]`, `sigma = [[1]]`, `lambda = 1e-6`, `delta = 0.9`,
`omega = [[0], [0]]`, `parameter_bound = 1`. -/
def cfgA : EPCConfig 1 1 1 :=
  ⟨1, 1, fun _ => 1, 1, 1 / 1000000, 9 / 10, 1, [[0], [0]], 1⟩

/-- A concrete recorded sample with zero residual under `cfg1`. -/
def s1 : Sample 1 1 := ⟨fun _ => 0, fun _ => 0, fun _ => 0⟩

/-- A concrete agent state whose automatic-record callback is set. -/
def st1 : AgentState 1 1 1 :=
  ⟨cfg1, [], [ellipsoid cfg1 []], none, fun _ => 0, true⟩

end

section DetLemmas

variable {k : ℕ}

/-- Over the reals the conjugate transpose is the transpose. -/
lemma conjTranspose_eq_transpose_real {a b : ℕ} (M : Matrix (Fin a) (Fin b) ℝ) :
    Mᴴ = Mᵀ :=
  Matrix.conjTranspose_eq_transpose_of_trivial M

/-- A real positive semidefinite matrix has nonnegative determinant. -/
lemma det_nonneg_of_posSemidef {A : Matrix (Fin k) (Fin k) ℝ}
    (hA : A.PosSemidef) : 0 ≤ A.det := by
  obtain ⟨B, rfl⟩ := Matrix.posSemidef_iff_eq_transpose_mul_self.mp hA
  rw [Matrix.det_mul, conjTranspose_eq_transpose_real, Matrix.det_transpose]
  exact mul_self_nonneg _

/-- A real positive semidefinite matrix with nonzero determinant is
positive definite. -/
lemma posDef_of_posSemidef_det_ne_zero {A : Matrix (Fin k) (Fin k) ℝ}
    (hA : A.PosSemidef) (h0 : A.det ≠ 0) : A.PosDef := by
  refine ⟨hA.isHermitian, fun x hx => (hA.2 x).lt_of_ne' fun hz => hx ?_⟩
  have hu : IsUnit A := (Matrix.isUnit_iff_isUnit_det A).mpr h0.isUnit
  have hAx : A.mulVec x = 0 := (hA.dotProduct_mulVec_zero_iff x).mp hz
  have hinj := Matrix.mulVec_injective_iff_isUnit.mpr hu
  exact hinj (by rw [hAx, Matrix.mulVec_zero])

/-- For a real positive semidefinite `C`, the determinant of `1 + C` is at
least one: conjugating by the eigenvector unitary reduces to a diagonal
matrix with entries `1 + eigenvalue ≥ 1`. -/
lemma one_le_det_one_add_of_posSemidef {C : Matrix (Fin k) (Fin k) ℝ}
    (hC : C.PosSemidef) : 1 ≤ (1 + C).det := by
  have hH : C.IsHermitian := hC.isHermitian
  set U : Matrix (Fin k) (Fin k) ℝ := (hH.eigenvectorUnitary : Matrix (Fin k) (Fin k) ℝ) with hUdef
  set D : Matrix (Fin k) (Fin k) ℝ :=
    Matrix.diagonal (RCLike.ofReal ∘ hH.eigenvalues) with hDdef
  have hU : U * star U = 1 :=
    Matrix.mem_unitaryGroup_iff.mp hH.eigenvectorUnitary.2
  have key : 1 + C = U * (1 + D) * star U := by
    rw [Matrix.mul_add, Matrix.mul_one, Matrix.add_mul, hU]
    exact congrArg (1 + ·) hH.spectral_theorem
  have hdet : (1 + C).det = (1 + D).det := by
    rw [key, Matrix.det_mul, Matrix.det_mul, mul_comm U.det _, mul_assoc,
      ← Matrix.det_mul, hU, Matrix.det_one, mul_one]
  rw [hdet, hDdef, ← Matrix.diagonal_one, Matrix.diagonal_add,
    Matrix.det_diagonal]
  calc (1 : ℝ) = ∏ _i : Fin k, (1 : ℝ) := (Finset.prod_const_one).symm
    _ ≤ ∏ i, (1 + (RCLike.ofReal ∘ hH.eigenvalues) i) := by
        refine Finset.prod_le_prod (fun i _ => zero_le_one) fun i _ => ?_
        exact le_add_of_nonneg_right
          (RCLike.ofReal_nonneg.mpr (hC.eigenvalues_nonneg i))

/-- Adding a real positive semidefinite matrix never decreases the
determinant of a positive semidefinite matrix. -/
lemma det_le_det_add_of_posSemidef {A B : Matrix (Fin k) (Fin k) ℝ}
    (hA : A.PosSemidef) (hB : B.PosSemidef) : A.det ≤ (A + B).det := by
  rcases eq_or_ne A.det 0 with h0 | h0
  · rw [h0]
    exact det_nonneg_of_posSemidef (hA.add hB)
  · have hAd : A.PosDef := posDef_of_posSemidef_det_ne_zero hA h0
    obtain ⟨M, rfl⟩ := Matrix.posSemidef_iff_eq_transpose_mul_self.mp hB
    rw [Matrix.det_add_mul Mᴴ M h0.isUnit]
    have hpsd : (M * A⁻¹ * Mᴴ).PosSemidef :=
      (hAd.inv.posSemidef).mul_mul_conjTranspose_same M
    exact le_mul_of_one_le_right hAd.det_pos.le
      (one_le_det_one_add_of_posSemidef hpsd)

end DetLemmas

section GMatrixLemmas

variable {n p d : ℕ}

/-- A sum of real positive semidefinite matrices is positive semidefinite. -/
lemma list_sum_posSemidef {k : ℕ} (l : List (Matrix (Fin k) (Fin k) ℝ))
    (h : ∀ M ∈ l, M.PosSemidef) : l.sum.PosSemidef := by
  induction l with
  | nil => exact Matrix.PosSemidef.zero
  | cons M t ih =>
      rw [List.sum_cons]
      exact (h M (List.mem_cons_self M t)).add
        (ih fun N hN => h N (List.mem_cons_of_mem M hN))

/-- Each information summand `phi_n.T @ sigma_inv @ phi_n` is positive
semidefinite when `sigma_inv` is. -/
lemma sampleInfo_posSemidef (cfg : EPCConfig n p d) (s : Sample n p)
    (hσ : (cfg.sigma⁻¹).PosSemidef) : (sampleInfo cfg s).PosSemidef := by
  have h := hσ.conjTranspose_mul_mul_same (featureMatrix cfg s.x)
  unfold sampleInfo
  rwa [conjTranspose_eq_transpose_real] at h

/-- The regularization floor `lambda * I` is positive semidefinite when
`lambda` is nonnegative. -/
lemma smulOne_posSemidef {k : ℕ} {c : ℝ} (hc : 0 ≤ c) :
    (c • (1 : Matrix (Fin k) (Fin k) ℝ)).PosSemidef := by
  rw [Matrix.smul_one_eq_diagonal]
  exact Matrix.PosSemidef.diagonal fun _ => hc

/-- The regularization floor `lambda * I` is positive definite when
`lambda` is positive. -/
lemma smulOne_posDef {k : ℕ} {c : ℝ} (hc : 0 < c) :
    (c • (1 : Matrix (Fin k) (Fin k) ℝ)).PosDef := by
  rw [Matrix.smul_one_eq_diagonal]
  cases k with
  | zero =>
      refine ⟨(Matrix.PosSemidef.diagonal fun _ => hc.le).isHermitian, fun x hx => ?_⟩
      exact absurd (funext fun i => i.elim0) hx
  | succ m => exact Matrix.posDef_diagonal_iff.mpr fun _ => hc

/-- The weight matrix `g_n_lambda` is positive semidefinite for any data,
given `lambda ≥ 0` and a positive semidefinite `sigma_inv`. -/
lemma gMatrix_posSemidef (cfg : EPCConfig n p d) (data : List (Sample n p))
    (hl : 0 ≤ cfg.lambda_) (hσ : (cfg.sigma⁻¹).PosSemidef) :
    (gMatrix cfg data).PosSemidef := by
  unfold gMatrix
  split
  · exact smulOne_posSemidef hl
  · refine (list_sum_posSemidef _ fun M hM => ?_).add (smulOne_posSemidef hl)
    obtain ⟨s, _, rfl⟩ := List.mem_map.mp hM
    exact sampleInfo_posSemidef cfg s hσ

/-- The weight matrix `g_n_lambda` is positive definite for any data, given
`lambda > 0` and a positive semidefinite `sigma_inv`. -/
lemma gMatrix_posDef (cfg : EPCConfig n p d) (data : List (Sample n p))
    (hl : 0 < cfg.lambda_) (hσ : (cfg.sigma⁻¹).PosSemidef) :
    (gMatrix cfg data).PosDef := by
  unfold gMatrix
  split
  · exact smulOne_posDef hl
  · refine Matrix.PosDef.posSemidef_add ?_ (smulOne_posDef hl)
    refine list_sum_posSemidef _ fun M hM => ?_
    obtain ⟨s, _, rfl⟩ := List.mem_map.mp hM
    exact sampleInfo_posSemidef cfg s hσ

/-- Appending one sample adds one information summand to `g_n_lambda`. -/
lemma gMatrix_append (cfg : EPCConfig n p d) (data : List (Sample n p))
    (s : Sample n p) :
    gMatrix cfg (data ++ [s]) = gMatrix cfg data + sampleInfo cfg s := by
  cases data with
  | nil =>
      simp only [gMatrix, List.nil_append, List.isEmpty_cons, List.isEmpty_nil,
        if_true, if_false, List.map_cons, List.map_nil, List.sum_cons,
        List.sum_nil, add_zero]
      exact add_comm _ _
  | cons a t =>
      simp only [gMatrix, List.cons_append, List.isEmpty_cons,
        Bool.false_eq_true, if_false, List.map_cons, List.map_append,
        List.map_nil, List.sum_cons, List.sum_append, List.sum_nil, add_zero]
      abel

end GMatrixLemmas

section Claims

variable {n p d : ℕ}

/-- C1: for every configuration (any parameter dimension `d` and
regularization weight `lambda > 0`), with an empty sample store,
`ellipsoid()` returns the weight matrix `G = lambda * I_d` exactly and the
zero point estimate. -/
theorem ellipsoid_empty_data (cfg : EPCConfig n p d) (_hl : 0 < cfg.lambda_) :
    (ellipsoid cfg []).G = cfg.lambda_ • (1 : Matrix (Fin d) (Fin d) ℝ) ∧
    (ellipsoid cfg []).theta = 0 :=
  ⟨rfl, rfl⟩

/-- Witness for C1 at the concrete configuration `cfg1`. -/
theorem ellipsoid_empty_data_witness :
    0 < cfg1.lambda_ ∧
    ((ellipsoid cfg1 []).G = cfg1.lambda_ • (1 : Matrix (Fin 1) (Fin 1) ℝ) ∧
     (ellipsoid cfg1 []).theta = 0) :=
  ⟨by norm_num [cfg1], ellipsoid_empty_data cfg1 (by norm_num [cfg1])⟩

/-- C3: appending a sample never decreases the determinant of the weight
matrix `G` returned by `ellipsoid()`, assuming a nonnegative regularization
and a positive-definite inverse noise covariance. -/
theorem det_G_monotone (cfg : EPCConfig n p d) (data : List (Sample n p))
    (s : Sample n p) (hl : 0 ≤ cfg.lambda_) (hσ : (cfg.sigma⁻¹).PosDef) :
    ((ellipsoid cfg data).G).det ≤ ((ellipsoid cfg (data ++ [s])).G).det := by
  show (gMatrix cfg data).det ≤ (gMatrix cfg (data ++ [s])).det
  rw [gMatrix_append]
  exact det_le_det_add_of_posSemidef
    (gMatrix_posSemidef cfg data hl hσ.posSemidef)
    (sampleInfo_posSemidef cfg s hσ.posSemidef)

/-- Witness for C3: appending the concrete sample `s1` to the empty store
under `cfg1`. -/
theorem det_G_monotone_witness :
    ((ellipsoid cfg1 []).G).det ≤ ((ellipsoid cfg1 [s1]).G).det := by
  have hσ : (cfg1.sigma⁻¹).PosDef := by
    show ((1 : Matrix (Fin 1) (Fin 1) ℝ)⁻¹).PosDef
    rw [inv_one, ← Matrix.diagonal_one]
    exact Matrix.posDef_diagonal_iff.mpr fun _ => one_pos
  exact det_G_monotone cfg1 [] s1 (by norm_num [cfg1]) hσ

/-- C4: for every sample sequence, `lambda > 0` and positive-definite noise
covariance `sigma`, the weight matrix `G` returned by `ellipsoid()` is
symmetric and positive definite. -/
theorem G_symm_posDef (cfg : EPCConfig n p d) (data : List (Sample n p))
    (hl : 0 < cfg.lambda_) (hσ : cfg.sigma.PosDef) :
    ((ellipsoid cfg data).G)ᵀ = (ellipsoid cfg data).G ∧
    ((ellipsoid cfg data).G).PosDef := by
  have hpd : (gMatrix cfg data).PosDef :=
    gMatrix_posDef cfg data hl hσ.inv.posSemidef
  refine ⟨?_, hpd⟩
  have h : (gMatrix cfg data)ᴴ = gMatrix cfg data := hpd.isHermitian
  rwa [conjTranspose_eq_transpose_real] at h

/-- Witness for C4 at `cfg1` with the one-sample store `[s1]`. -/
theorem G_symm_posDef_witness :
    (((ellipsoid cfg1 [s1]).G)ᵀ = (ellipsoid cfg1 [s1]).G ∧
     ((ellipsoid cfg1 [s1]).G).PosDef) := by
  have hσ : cfg1.sigma.PosDef := by
    show (1 : Matrix (Fin 1) (Fin 1) ℝ).PosDef
    rw [← Matrix.diagonal_one]
    exact Matrix.posDef_diagonal_iff.mpr fun _ => one_pos
  exact G_symm_posDef cfg1 [s1] (by norm_num [cfg1]) hσ

/-- C5: every vertex parameter offset produced by `polytope()` (the clipped
`m @ h_k`, for any confidence radius and any eigendecomposition of `G`)
has every component within `[-parameter_bound, parameter_bound]`, the
configured bound being nonnegative. -/
theorem polytope_vertices_clipped (cfg : EPCConfig n p d) (beta : ℝ)
    (values : Fin d → ℝ) (vecP : Matrix (Fin d) (Fin d) ℝ)
    (hS : 0 ≤ cfg.parameter_bound) :
    ∀ v ∈ d_theta_k cfg beta values vecP, ∀ i,
      -cfg.parameter_bound ≤ v i ∧ v i ≤ cfg.parameter_bound := by
  intro v hv i
  obtain ⟨h, _, rfl⟩ := List.mem_map.mp hv
  unfold clip
  exact ⟨le_min (neg_le_self hS) (le_max_right _ _), min_le_left _ _⟩

/-- Witness for C5 at `cfg1`, radius `1` and the identity eigendecomposition. -/
theorem polytope_vertices_clipped_witness :
    0 ≤ cfg1.parameter_bound ∧
    ∀ v ∈ d_theta_k cfg1 1 (fun _ => 1) 1, ∀ i,
      -cfg1.parameter_bound ≤ v i ∧ v i ≤ cfg1.parameter_bound :=
  ⟨by norm_num [cfg1],
   polytope_vertices_clipped cfg1 1 (fun _ => 1) 1 (by norm_num [cfg1])⟩

/-- C6: the nominal-only variant `NominalEPCAgent.polytope` always returns
exactly one perturbation vertex, the all-zero matrix of the shape of `a0`,
whatever the underlying ellipsoid and eigendecomposition. -/
theorem nominal_polytope_single_zero_vertex (cfg : EPCConfig n p d)
    (e : Ellipsoid d) (values : Fin d → ℝ)
    (vecP : Matrix (Fin d) (Fin d) ℝ) :
    (NominalEPCAgent.polytope cfg e values vecP).2.length = 1 ∧
    (NominalEPCAgent.polytope cfg e values vecP).2 =
      [(0 : Matrix (Fin n) (Fin n) ℝ)] :=
  ⟨rfl, rfl⟩

/-- C7: calling the method `ellipsoid()` twice in a row mutates no agent
state and yields identical `theta`, `G` and `beta` on both calls. -/
theorem ellipsoid_call_idempotent (s : AgentState n p d) :
    (ellipsoidCall s).1 = s ∧
    (ellipsoidCall (ellipsoidCall s).1).2.theta = (ellipsoidCall s).2.theta ∧
    (ellipsoidCall (ellipsoidCall s).1).2.G = (ellipsoidCall s).2.G ∧
    (ellipsoidCall (ellipsoidCall s).1).2.beta = (ellipsoidCall s).2.beta :=
  ⟨rfl, rfl, rfl, rfl⟩

/-- C9: one full planning cycle (`plan`, which runs `robustify_env` and
`polytope` and reads the latest ellipsoid) leaves `self.data` and
`self.ellipsoids` unchanged, whether the external sub-planner succeeds or
fails. -/
theorem plan_frame {ε α : Type} (s : AgentState n p d) (values : Fin d → ℝ)
    (vecP : Matrix (Fin d) (Fin d) ℝ)
    (sub_plan : RobustEnv n → Except ε (List α)) :
    (plan s values vecP sub_plan).1.data = s.data ∧
    (plan s values vecP sub_plan).1.ellipsoids = s.ellipsoids :=
  ⟨rfl, rfl⟩

/-- C10: when the environment's automatic-record callback is set, `record`
is a no-op: it appends no sample and produces no new ellipsoid. -/
theorem record_noop_of_automatic (s : AgentState n p d) (state : Fin n → ℝ)
    (control : Fin p → ℝ) (derivative : Fin n → ℝ)
    (h : s.automatic_record_callback = true) :
    (record s state control derivative).data = s.data ∧
    (record s state control derivative).ellipsoids = s.ellipsoids := by
  simp [record, h]

/-- Witness for C10 at the concrete state `st1`, whose callback is set. -/
theorem record_noop_of_automatic_witness :
    st1.automatic_record_callback = true ∧
    ((record st1 0 0 0).data = st1.data ∧
     (record st1 0 0 0).ellipsoids = st1.ellipsoids) :=
  ⟨rfl, record_noop_of_automatic st1 0 0 0 rfl⟩

/-- C8: if a single recorded sample has zero residual (its observed
derivative equals `A @ x + B @ u` exactly), then the point estimate returned
by `ellipsoid()` is the zero vector, whatever `lambda > 0` and whatever
invertible noise covariance. -/
theorem theta_zero_residual (cfg : EPCConfig n p d) (s : Sample n p)
    (hres : s.dx = cfg.A.mulVec s.x + cfg.B.mulVec s.u)
    (_hl : 0 < cfg.lambda_) (_hσ : IsUnit cfg.sigma.det) :
    (ellipsoid cfg [s]).theta = 0 := by
  show thetaVec cfg [s] = 0
  have hy : yResidual cfg s = 0 := by
    unfold yResidual
    rw [hres]
    abel
  simp [thetaVec, hy, Matrix.mulVec_zero]

/-- Witness for C8 at `cfg1` and the all-zero sample `s1` (whose residual
is zero). -/
theorem theta_zero_residual_witness :
    s1.dx = cfg1.A.mulVec s1.x + cfg1.B.mulVec s1.u ∧
    (0 : ℝ) < cfg1.lambda_ ∧ IsUnit cfg1.sigma.det ∧
    (ellipsoid cfg1 [s1]).theta = 0 := by
  have h1 : s1.dx = cfg1.A.mulVec s1.x + cfg1.B.mulVec s1.u := by
    show (0 : Fin 1 → ℝ) = cfg1.A.mulVec 0 + cfg1.B.mulVec 0
    simp [Matrix.mulVec_zero]
  have h2 : (0 : ℝ) < cfg1.lambda_ := by norm_num [cfg1]
  have h3 : IsUnit cfg1.sigma.det := by
    show IsUnit (1 : Matrix (Fin 1) (Fin 1) ℝ).det
    simp
  exact ⟨h1, h2, h3, theta_zero_residual cfg1 s1 h1 h2 h3⟩

end Claims

section ScenarioA

variable {n p : ℕ}

/-- With parameter dimension one, a nonzero regularization and no samples,
the confidence radius computed by `ellipsoid()` evaluates to
`sqrt(2*log(1/delta)) + sqrt(lambda)*S` (the determinant ratio
`det(G)/lambda^d` collapses to `1`). -/
lemma betaVal_empty_d1 (cfg : EPCConfig n p 1) (hlam : cfg.lambda_ ≠ 0) :
    betaVal cfg [] = Real.sqrt (2 * Real.log (1 / cfg.delta))
      + Real.sqrt cfg.lambda_ * cfg.parameter_bound := by
  unfold betaVal
  have hG : (gMatrix cfg ([] : List (Sample n p))).det = cfg.lambda_ := by
    show (cfg.lambda_ • (1 : Matrix (Fin 1) (Fin 1) ℝ)).det = cfg.lambda_
    rw [Matrix.det_fin_one]
    simp
  rw [hG, pow_one, div_self hlam, Real.sqrt_one]
  norm_num

/-- C2 (amended): with parameter dimension `d = 1`, `lambda = 1e-6` and no
recorded samples, `ellipsoid()` returns exactly `theta = 0`, `G = [lambda]`
and `beta = sqrt(2*log(1/delta)) + sqrt(lambda)*S`. -/
theorem scenarioA_amended (cfg : EPCConfig n p 1)
    (hlam : cfg.lambda_ = 1 / 1000000) :
    (ellipsoid cfg []).theta = 0 ∧
    (ellipsoid cfg []).G = cfg.lambda_ • (1 : Matrix (Fin 1) (Fin 1) ℝ) ∧
    (ellipsoid cfg []).beta = Real.sqrt (2 * Real.log (1 / cfg.delta))
      + Real.sqrt cfg.lambda_ * cfg.parameter_bound := by
  refine ⟨rfl, rfl, ?_⟩
  show betaVal cfg [] = _
  exact betaVal_empty_d1 cfg (by rw [hlam]; norm_num)

/-- Witness for the amended C2 at the default configuration `cfgA`. -/
theorem scenarioA_amended_witness :
    cfgA.lambda_ = 1 / 1000000 ∧
    ((ellipsoid cfgA []).theta = 0 ∧
     (ellipsoid cfgA []).G = cfgA.lambda_ • (1 : Matrix (Fin 1) (Fin 1) ℝ) ∧
     (ellipsoid cfgA []).beta = Real.sqrt (2 * Real.log (1 / cfgA.delta))
       + Real.sqrt cfgA.lambda_ * cfgA.parameter_bound) :=
  ⟨rfl, scenarioA_amended cfgA rfl⟩

/-- C2 counterexample: at the default configuration (`d = 1`,
`lambda = 1e-6`, `delta = 0.9`, `S = 1`) with no samples, the radius
returned by `ellipsoid()` differs from the claimed closed form
`sqrt(2*log(sqrt(1/lambda)/delta)) + sqrt(lambda)*S`: the code computes
`sqrt(det(G)/lambda^d) = 1`, not `sqrt(1/lambda)`. -/
theorem scenarioA_counterexample :
    (ellipsoid cfgA []).beta ≠
      Real.sqrt (2 * Real.log (Real.sqrt (1 / cfgA.lambda_) / cfgA.delta))
        + Real.sqrt cfgA.lambda_ * cfgA.parameter_bound := by
  have hbeta : (ellipsoid cfgA []).beta
      = Real.sqrt (2 * Real.log (1 / cfgA.delta))
        + Real.sqrt cfgA.lambda_ * cfgA.parameter_bound :=
    betaVal_empty_d1 cfgA (by norm_num [cfgA])
  rw [hbeta]
  show Real.sqrt (2 * Real.log (1 / (9 / 10 : ℝ)))
        + Real.sqrt (1 / 1000000 : ℝ) * 1
      ≠ Real.sqrt (2 * Real.log (Real.sqrt (1 / (1 / 1000000 : ℝ)) / (9 / 10 : ℝ)))
        + Real.sqrt (1 / 1000000 : ℝ) * 1
  have h1000 : Real.sqrt (1 / (1 / 1000000 : ℝ)) = 1000 := by
    rw [show (1 / (1 / 1000000 : ℝ)) = 1000 ^ 2 by norm_num]
    exact Real.sqrt_sq (by norm_num)
  rw [h1000]
  have hlt : Real.sqrt (2 * Real.log (1 / (9 / 10 : ℝ)))
      < Real.sqrt (2 * Real.log (1000 / (9 / 10 : ℝ))) := by
    apply Real.sqrt_lt_sqrt
    · have h := Real.log_nonneg (by norm_num : (1 : ℝ) ≤ 1 / (9 / 10))
      linarith
    · have h := Real.log_lt_log (by norm_num : (0 : ℝ) < 1 / (9 / 10))
        (by norm_num : (1 : ℝ) / (9 / 10) < 1000 / (9 / 10))
      linarith
  exact ne_of_lt (by linarith [hlt])

end ScenarioA
